import Mathlib

/-!
# Verification of the SHEPHARD annotation data model

A shallow embedding of the SHEPHARD hierarchical annotation store
(Proteome → Protein → Domain / Site / Track / attributes) together with
its flat-file interchange engine (the `si_domains` / `si_tracks` style
readers and writers), and proofs of the documented contracts: the
1-based inclusive coordinate system, attachment-time invariants,
selective ingestion, bounded error aggregation, and the byte-identical
write → read → write round trip.

The repository snapshot available here contains the project's
documentation (docs/*.rst, the file-format specification and the
code-convention pages) but not the Python bodies of `shephard.protein`,
`shephard.proteome`, `shephard.interfaces` or `shephard.tools`; each
definition below is therefore modelled from the specification's wording,
as indicated in its doc comment.

Strings are modelled as `List Char` (a Python `str` is a sequence of
characters); a file is a `List Char` as well, so "byte-identical" output
is plain equality of character lists.
-/

namespace Shephard

/-! ## Data model -/

/-- Modelled from the spec: a Domain is a contiguous interval annotation
with 1-based inclusive `start`/`end` bounds, a free-form type label and
an attribute store (insertion-ordered key/value pairs).  The Python
attribute `end` is spelled `dend` here (`end` is a Lean keyword). -/
structure Domain where
  start : Nat
  dend : Nat
  domain_type : List Char
  attributes : List (List Char × List Char)
deriving DecidableEq, Repr

/-- Modelled from the spec: a Site is a single-position annotation with
a type label, an optional symbol, an optional numeric value and an
attribute store. -/
structure Site where
  position : Nat
  site_type : List Char
  symbol : Option (List Char)
  value : Option Int
  attributes : List (List Char × List Char)
deriving DecidableEq, Repr

/-- Modelled from the spec: a Track's per-residue payload is either
entirely numeric or entirely symbolic, never mixed. -/
inductive TrackData where
  | values (vs : List Int)
  | symbols (ss : List (List Char))
deriving DecidableEq, Repr

/-- Modelled from the spec: a Track is a named per-residue vector
annotation. -/
structure Track where
  name : List Char
  data : TrackData
deriving DecidableEq, Repr

/-- Number of per-residue entries held by a track. -/
def Track.entry_count (t : Track) : Nat :=
  match t.data with
  | .values vs => vs.length
  | .symbols ss => ss.length

/-- Modelled from the spec: a Protein (Sequence Entity) owns an
immutable sequence, a unique identifier, a display name, an attribute
store, and insertion-ordered collections of Domains, Sites and
Tracks. -/
structure Protein where
  unique_ID : List Char
  name : List Char
  sequence : List Char
  attributes : List (List Char × List Char)
  domains : List Domain
  sites : List Site
  tracks : List Track
deriving DecidableEq, Repr

/-- Modelled from the spec: a Proteome (Collection) owns an
insertion-ordered list of Proteins plus a collection-level attribute
store.  Identifier uniqueness is enforced by `add_protein`. -/
structure Proteome where
  proteins : List Protein
  attributes : List (List Char × List Char)
deriving DecidableEq, Repr

/-! ## Sequence coordinate services (`shephard.protein.Protein`) -/

/-- 1-based inclusive slice of a character sequence: positions
`a`, `a+1`, …, `b` of `s` (position 1 is the first character). -/
def seqSlice (s : List Char) (a b : Nat) : List Char :=
  (s.drop (a - 1)).take (b - a + 1)

/-- Errors raised by Protein-level coordinate services and attachment
calls; each constructor records which identifier/position/field
triggered it. -/
inductive ProteinError where
  | region_out_of_range (start_ end_ : Int) (len : Nat)
  | domain_out_of_range (start_ end_ len : Nat)
  | track_length_mismatch (name : List Char) (got expected : Nat)
  | duplicate_track_name (name : List Char)
  | track_value_unparsable (tok : List Char)
  | track_line_malformed (line : List Char)
deriving DecidableEq, Repr

/-- Modelled from the spec: `Protein.get_sequence_region(start, end)`
returns the inclusive 1-based slice and fails with an out-of-range
error if either bound is outside `[1, length]` or `start > end`. -/
def Protein.get_sequence_region (p : Protein) (start_ end_ : Int) :
    Except ProteinError (List Char) :=
  if start_ < 1 ∨ end_ > (p.sequence.length : Int) ∨ start_ > end_ then
    .error (.region_out_of_range start_ end_ p.sequence.length)
  else
    .ok (seqSlice p.sequence start_.toNat end_.toNat)

/-- Modelled from the spec: `Protein.get_sequence_context(position,
window)` returns the symmetric window of `window` residues on either
side of `position`, clipped to the sequence bounds; clipping, not
erroring, is the contract, so the function is total. -/
def Protein.get_sequence_context (p : Protein) (position window : Nat) :
    List Char :=
  let lower := max 1 (position - window)
  let upper := min p.sequence.length (position + window)
  seqSlice p.sequence lower upper

/-! ## Protein-level attachment calls -/

/-- Modelled from the spec: attaching a Domain validates the interval
against the owning sequence at attachment time (1-based, inclusive,
not inverted) and fails fast on violation. -/
def Protein.add_domain (p : Protein) (start_ dend_ : Nat)
    (domain_type : List Char)
    (attributes : List (List Char × List Char)) :
    Except ProteinError Protein :=
  if 1 ≤ start_ ∧ start_ ≤ dend_ ∧ dend_ ≤ p.sequence.length then
    .ok { p with domains := p.domains ++ [⟨start_, dend_, domain_type, attributes⟩] }
  else
    .error (.domain_out_of_range start_ dend_ p.sequence.length)

/-- Modelled from the spec: attaching a Track rejects a per-residue
vector whose entry count differs from the owning sequence's length
(length-mismatch), and track names are unique per Protein. -/
def Protein.add_track (p : Protein) (t : Track) :
    Except ProteinError Protein :=
  if t.entry_count ≠ p.sequence.length then
    .error (.track_length_mismatch t.name t.entry_count p.sequence.length)
  else if p.tracks.any (fun tr => decide (tr.name = t.name)) then
    .error (.duplicate_track_name t.name)
  else
    .ok { p with tracks := p.tracks ++ [t] }

/-- Look a Track up by name. -/
def Protein.track? (p : Protein) (name : List Char) : Option Track :=
  p.tracks.find? (fun t => decide (t.name = name))

/-! ## Proteome (Collection) operations -/

/-- Identifier list of a Proteome, in insertion order. -/
def Proteome.uids (P : Proteome) : List (List Char) :=
  P.proteins.map (·.unique_ID)

/-- Modelled from the spec: `Proteome.check_unique_ID` reports whether
an identifier is already present in the Collection. -/
def Proteome.check_unique_ID (P : Proteome) (uid : List Char) : Bool :=
  P.proteins.any (fun pr => decide (pr.unique_ID = uid))

/-- Look a Protein up by identifier (first match in insertion order). -/
def Proteome.protein? (P : Proteome) (uid : List Char) : Option Protein :=
  P.proteins.find? (fun pr => decide (pr.unique_ID = uid))

/-- Collection-level errors. -/
inductive ProteomeError where
  | duplicate_unique_ID (uid : List Char)
deriving DecidableEq, Repr

/-- Modelled from the spec: inserting a Protein whose identifier is
already present fails with a duplicate-identifier error; otherwise the
Protein is appended (iteration is insertion-ordered). -/
def Proteome.add_protein (P : Proteome) (p : Protein) :
    Except ProteomeError Proteome :=
  if P.check_unique_ID p.unique_ID then
    .error (.duplicate_unique_ID p.unique_ID)
  else
    .ok { P with proteins := P.proteins ++ [p] }

/-- Modelled from the spec: removing a Protein drops every entry with
the given identifier (and with it all of its annotations). -/
def Proteome.remove_protein (P : Proteome) (uid : List Char) : Proteome :=
  { P with proteins := P.proteins.filter (fun pr => decide (pr.unique_ID ≠ uid)) }

/-- An insert/remove step against a Collection. -/
inductive ProteomeOp where
  | add (p : Protein)
  | remove (uid : List Char)

/-- Run one insert/remove step; a failing insert leaves the Collection
unchanged. -/
def Proteome.apply_op (P : Proteome) (op : ProteomeOp) : Proteome :=
  match op with
  | .add p =>
    match P.add_protein p with
    | .ok P' => P'
    | .error _ => P
  | .remove uid => P.remove_protein uid

/-! ## Character-level utilities shared by the file interfaces

The flat formats are tab-separated lines with `key:value` metadata
tokens; these are the splitting/joining and decimal primitives the
readers and writers are built from. -/

/-- Split at every occurrence of `sep`, processing from the left; the
first component is the first field, the second the remaining fields. -/
def splitCharAux (sep : Char) : List Char → List Char × List (List Char)
  | [] => ([], [])
  | c :: rest =>
    let r := splitCharAux sep rest
    if c = sep then ([], r.1 :: r.2) else (c :: r.1, r.2)

/-- Split into fields at `sep`; always returns at least one field
(splitting the empty text yields one empty field). -/
def splitChar (sep : Char) (cs : List Char) : List (List Char) :=
  (splitCharAux sep cs).1 :: (splitCharAux sep cs).2

/-- Join fields with `sep` between consecutive fields. -/
def joinChar (sep : Char) : List (List Char) → List Char
  | [] => []
  | [f] => f
  | f :: g :: fs => f ++ sep :: joinChar sep (g :: fs)

/-- Decimal rendering of a natural number (most significant digit
first, no sign, no leading zeros except for `0` itself). -/
def natToChars (n : Nat) : List Char :=
  if n < 10 then
    [Char.ofNat (48 + n)]
  else
    natToChars (n / 10) ++ [Char.ofNat (48 + n % 10)]
decreasing_by exact Nat.div_lt_self (by omega) (by omega)

/-- Value of a decimal digit character, if it is one. -/
def digitVal? (c : Char) : Option Nat :=
  if 48 ≤ c.toNat ∧ c.toNat ≤ 57 then some (c.toNat - 48) else none

/-- Left-to-right decimal accumulation; fails on any non-digit. -/
def charsToNatAux : List Char → Nat → Option Nat
  | [], acc => some acc
  | c :: cs, acc =>
    match digitVal? c with
    | some d => charsToNatAux cs (acc * 10 + d)
    | none => none

/-- Parse a non-empty all-digit token as a natural number. -/
def charsToNat (cs : List Char) : Option Nat :=
  if cs = [] then none else charsToNatAux cs 0

/-! ## File interface engine: domain files (`si_domains`) -/

/-- A parsed domain-file record (the dictionary-ingestion form every
file loader shares). -/
structure DomainRecord where
  uid : List Char
  start : Nat
  dend : Nat
  domain_type : List Char
  attributes : List (List Char × List Char)
deriving DecidableEq, Repr

/-- Modelled from the spec: a metadata token must contain a `:`; the
text before the first colon is the key and everything after it the
value. -/
def parseAttrToken (tok : List Char) : Option (List Char × List Char) :=
  match splitChar ':' tok with
  | [_] => none
  | k :: rest => some (k, joinChar ':' rest)
  | [] => none

/-- Parse a run of metadata tokens; any malformed token poisons the
whole line. -/
def parseAttrTokens : List (List Char) → Option (List (List Char × List Char))
  | [] => some []
  | t :: ts =>
    match parseAttrToken t, parseAttrTokens ts with
    | some kv, some rest => some (kv :: rest)
    | _, _ => none

/-- Outcome of parsing the non-identifier columns of one line. -/
inductive DomainLineOutcome where
  | record (r : DomainRecord)
  | malformed (msg : List Char)

/-- Modelled from the spec: a domain line is
`Unique_ID  start  end  domain_type  [key:value ...]`; wrong column
count, an unparsable number or a token without `:` is a format
error. -/
def parse_domain_fields (uid : List Char) (fields : List (List Char)) :
    DomainLineOutcome :=
  match fields with
  | st :: en :: ty :: attrToks =>
    match charsToNat st, charsToNat en with
    | some s, some e =>
      match parseAttrTokens attrToks with
      | some attrs => .record ⟨uid, s, e, ty, attrs⟩
      | none => .malformed ("malformed key:value token for ".data ++ uid)
    | _, _ => .malformed ("unparsable start/end for ".data ++ uid)
  | _ => .malformed ("wrong column count for ".data ++ uid)

/-- Accumulated state of one bulk domain-file load. -/
structure DomainLoadState where
  proteome : Proteome
  error_messages : List (List Char)
  skipped_count : Nat
deriving DecidableEq, Repr

/-- Append a Domain to the (unique) Protein with the given identifier. -/
def attachDomainToList : List Protein → List Char → Domain → List Protein
  | [], _, _ => []
  | pr :: rest, uid, d =>
    if pr.unique_ID = uid then
      { pr with domains := pr.domains ++ [d] } :: rest
    else
      pr :: attachDomainToList rest uid d

/-- The Domain a record materializes as. -/
def mkDomain (r : DomainRecord) : Domain :=
  ⟨r.start, r.dend, r.domain_type, r.attributes⟩

/-- Modelled from the spec: process one line of a domain file.  Blank
lines are ignored; a line whose leading identifier is not in the
Collection is skipped without error (selective ingestion; the identifier
index is consulted before any record is constructed); a malformed line
is recorded as one error and processing continues; a well-formed record
is validated against the owning sequence and attached. -/
def si_domains_process_line (st : DomainLoadState) (line : List Char) :
    DomainLoadState :=
  if line = [] then st
  else
    match splitChar '\t' line with
    | [] => st
    | uid :: rest =>
      match st.proteome.protein? uid with
      | none => { st with skipped_count := st.skipped_count + 1 }
      | some pr =>
        match parse_domain_fields uid rest with
        | .malformed msg =>
          { st with error_messages := st.error_messages ++ [msg] }
        | .record r =>
          if 1 ≤ r.start ∧ r.start ≤ r.dend ∧ r.dend ≤ pr.sequence.length then
            { st with proteome :=
                { st.proteome with proteins :=
                    attachDomainToList st.proteome.proteins uid (mkDomain r) } }
          else
            { st with error_messages := st.error_messages ++
                [("domain out of range for ".data ++ uid)] }

/-- Bulk-load a list of domain-file lines into a Collection. -/
def add_domains_from_lines (P : Proteome) (lines : List (List Char)) :
    DomainLoadState :=
  lines.foldl si_domains_process_line ⟨P, [], 0⟩

/-- Modelled from the spec: the final report of a load carries the
mutated Collection, the total error count, at most the first 10 error
messages, and the count of lines skipped by selective ingestion. -/
structure DomainLoadReport where
  proteome : Proteome
  error_count : Nat
  reported_messages : List (List Char)
  skipped_count : Nat
deriving DecidableEq, Repr

/-- Truncate the aggregated messages to the first 10 while always
reporting the full counts. -/
def finalize_report (st : DomainLoadState) : DomainLoadReport :=
  ⟨st.proteome, st.error_messages.length, st.error_messages.take 10,
    st.skipped_count⟩

/-- Modelled from the spec: `si_domains.add_domains_from_file` — split
the file into lines and run the shared attachment path, aggregating
errors instead of aborting. -/
def add_domains_from_file (P : Proteome) (file : List Char) :
    DomainLoadReport :=
  finalize_report (add_domains_from_lines P (splitChar '\n' file))

/-- Serialize one metadata pair as a `key:value` token. -/
def attr_token (kv : List Char × List Char) : List Char :=
  kv.1 ++ ':' :: kv.2

/-- Modelled from the spec: one written domain line, tab-separated, in
the same column order the reader expects. -/
def domain_line (uid : List Char) (d : Domain) : List Char :=
  joinChar '\t'
    (uid :: natToChars d.start :: natToChars d.dend :: d.domain_type ::
      d.attributes.map attr_token)

/-- All domain lines of a Collection, Proteins in insertion order,
Domains in insertion order. -/
def domain_lines (P : Proteome) : List (List Char) :=
  P.proteins.flatMap (fun pr => pr.domains.map (domain_line pr.unique_ID))

/-- Modelled from the spec: `si_domains.write_domains` — purely
mechanical serialization, one newline-terminated line per Domain. -/
def write_domains (P : Proteome) : List Char :=
  joinChar '\n' (domain_lines P ++ [[]])

/-- A Protein with its annotations removed (identifier, name, sequence
and attributes kept). -/
def strip_protein (pr : Protein) : Protein :=
  { pr with domains := [], sites := [], tracks := [] }

/-- A Protein with its Domains kept and its other annotations
removed. -/
def restore_protein (pr : Protein) : Protein :=
  { pr with sites := [], tracks := [] }

/-- A fresh Collection seeded with the same sequences: same Proteins
(identifier, name, sequence, attributes) but no annotations. -/
def strip_annotations (P : Proteome) : Proteome :=
  { proteins := P.proteins.map strip_protein
    attributes := P.attributes }

/-- The Collection a full domain-file reload reconstructs: every
Protein keeps its Domains, the other annotation kinds start empty. -/
def restore_domains (P : Proteome) : Proteome :=
  { proteins := P.proteins.map restore_protein
    attributes := P.attributes }

/-! ### Well-formedness for serialization

A Collection is representable in the tab-separated domain-file format
when no serialized field smuggles in a field or line separator and
every Domain respects the attachment invariant. -/

/-- The key of a metadata pair may not contain the token, field or line
separators; the value may not contain the field or line separators. -/
abbrev wf_attr (kv : List Char × List Char) : Prop :=
  '\t' ∉ kv.1 ∧ '\n' ∉ kv.1 ∧ ':' ∉ kv.1 ∧ '\t' ∉ kv.2 ∧ '\n' ∉ kv.2

/-- A Domain is serializable and within the owning sequence of length
`len`. -/
abbrev wf_domain (len : Nat) (d : Domain) : Prop :=
  1 ≤ d.start ∧ d.start ≤ d.dend ∧ d.dend ≤ len ∧
  '\t' ∉ d.domain_type ∧ '\n' ∉ d.domain_type ∧
  ∀ kv ∈ d.attributes, wf_attr kv

/-- A Protein with a serializable identifier and serializable, in-range
Domains. -/
abbrev wf_protein (pr : Protein) : Prop :=
  '\t' ∉ pr.unique_ID ∧ '\n' ∉ pr.unique_ID ∧
  ∀ d ∈ pr.domains, wf_domain pr.sequence.length d

/-- A Collection with unique identifiers whose Proteins are all
serializable. -/
abbrev wf_proteome (P : Proteome) : Prop :=
  P.uids.Nodup ∧ ∀ pr ∈ P.proteins, wf_protein pr

/-! ## File interface engine: track files (`si_tracks`) -/

/-- Parse every value token of a (numeric) track line. -/
def parse_value_tokens : List (List Char) → Option (List Int)
  | [] => some []
  | t :: ts =>
    match charsToNat t, parse_value_tokens ts with
    | some v, some vs => some ((v : Int) :: vs)
    | _, _ => none

/-- Modelled from the spec: a track line is
`Unique_ID  track_name  v1 … vN`; the values are attached through the
same `add_track` call as the direct API, so a line whose value count
differs from the sequence length is rejected with a length-mismatch
error. -/
def Protein.add_track_from_line (p : Protein) (line : List Char) :
    Except ProteinError Protein :=
  match splitChar '\t' line with
  | _ :: name :: toks =>
    match parse_value_tokens toks with
    | some vs => p.add_track ⟨name, .values vs⟩
    | none => .error (.track_value_unparsable name)
  | _ => .error (.track_line_malformed line)

/-! ## Annotation tools (`shephard.tools`) -/

/-- Is a position covered by any Domain of the list? -/
def domain_covers (ds : List Domain) (pos : Nat) : Bool :=
  ds.any (fun d => decide (d.start ≤ pos ∧ pos ≤ d.dend))

/-- `[s, e]` is a maximal run of positions of `[1, L]` not covered by
any existing Domain: every position inside is uncovered and the run can
be extended in neither direction. -/
def is_missing_run (L : Nat) (ds : List Domain) (s e : Nat) : Bool :=
  decide (1 ≤ s) && decide (s ≤ e) && decide (e ≤ L) &&
  (List.range' s (e + 1 - s)).all (fun pos => ! domain_covers ds pos) &&
  (decide (s = 1) || domain_covers ds (s - 1)) &&
  (decide (e = L) || domain_covers ds (e + 1))

/-- All 1-based inclusive sub-intervals of `[1, L]`, in lexicographic
order. -/
def interval_pairs (L : Nat) : List (Nat × Nat) :=
  (List.range' 1 L).flatMap
    (fun s => (List.range' s (L + 1 - s)).map (fun e => (s, e)))

/-- Modelled from the spec:
`build_missing_domains(sequenceEntity, domainType)` materializes one new
Domain of the supplied type per maximal run of residues not covered by
any existing Domain; empty gaps produce no Domain.  The inputs are not
modified. -/
def build_missing_domains (p : Protein) (domain_type : List Char) :
    List Domain :=
  ((interval_pairs p.sequence.length).filter
      (fun se => is_missing_run p.sequence.length p.domains se.1 se.2)).map
    (fun se => ⟨se.1, se.2, domain_type, []⟩)

/-- Numeric value a track holds at a 1-based position. -/
def value_at (vs : List Int) (pos : Nat) : Int :=
  vs.getD (pos - 1) 0

/-- `[s, e]` is a maximal run of positions whose track values satisfy
the predicate. -/
def is_pred_run (vs : List Int) (pred : Int → Bool) (s e : Nat) : Bool :=
  decide (1 ≤ s) && decide (s ≤ e) && decide (e ≤ vs.length) &&
  (List.range' s (e + 1 - s)).all (fun pos => pred (value_at vs pos)) &&
  (decide (s = 1) || ! pred (value_at vs (s - 1))) &&
  (decide (e = vs.length) || ! pred (value_at vs (e + 1)))

/-- Modelled from the spec:
`build_domains_from_track_values(track, predicate)` emits one Domain per
maximal run of consecutive positions satisfying the predicate, handling
runs that reach either sequence boundary.  The inputs are not
modified. -/
def build_domains_from_track_values (t : Track) (domain_type : List Char)
    (pred : Int → Bool) : List Domain :=
  let vs := match t.data with
    | .values vs => vs
    | .symbols _ => []
  ((interval_pairs vs.length).filter
      (fun se => is_pred_run vs pred se.1 se.2)).map
    (fun se => ⟨se.1, se.2, domain_type, []⟩)

/-- Modelled from the spec:
`build_site_density_vector(sequenceEntity, siteType, windowSize)`
produces a numeric Track whose entry at each position counts the
matching Sites within the centered window, clipped at the sequence
boundaries.  The inputs are not modified. -/
def build_site_density_vector (p : Protein) (site_type : List Char)
    (window : Nat) : Track :=
  ⟨site_type, .values
    ((List.range' 1 p.sequence.length).map (fun pos =>
      ((p.sites.filter (fun s =>
          decide (s.site_type = site_type) &&
          decide (max 1 (pos - window) ≤ s.position) &&
          decide (s.position ≤ min p.sequence.length (pos + window)))).length
        : Int)))⟩

/-- A call into one of the derived-annotation tool functions, addressed
through the Collection by identifier. -/
inductive ToolCall where
  | missing_domains (uid dtype : List Char)
  | domains_from_track (uid tname dtype : List Char) (threshold : Int)
  | site_density (uid stype : List Char) (window : Nat)

/-- What a tool call returns: freshly built objects for the caller to
attach separately, never a mutation of the inputs. -/
inductive ToolResult where
  | domains (ds : List Domain)
  | track (t : Track)
  | not_found

/-- Modelled from the spec/code-convention page: tool functions are
stateless — they take input data only and return new objects; running
one against a Collection is modelled as a state-passing call so that
the frame property (the Collection is returned untouched) is
explicit. -/
def tools_call (P : Proteome) (c : ToolCall) : Proteome × ToolResult :=
  match c with
  | .missing_domains uid dtype =>
    match P.protein? uid with
    | some pr => (P, .domains (build_missing_domains pr dtype))
    | none => (P, .not_found)
  | .domains_from_track uid tname dtype thr =>
    match P.protein? uid with
    | some pr =>
      match pr.track? tname with
      | some t => (P, .domains
          (build_domains_from_track_values t dtype (fun v => decide (thr ≤ v))))
      | none => (P, .not_found)
    | none => (P, .not_found)
  | .site_density uid stype w =>
    match P.protein? uid with
    | some pr => (P, .track (build_site_density_vector pr stype w))
    | none => (P, .not_found)

/-! ## Concrete fixtures from the documentation's worked examples -/

/-- The concrete sequence entity of the documentation's worked example
(`MAEPQRDG`, length 8, identifier `P1`). -/
def exampleProtein : Protein :=
  { unique_ID := "P1".data
    name := "P1".data
    sequence := "MAEPQRDG".data
    attributes := []
    domains := []
    sites := []
    tracks := [] }

/-- The worked gap-filling fixture: a 10-residue sequence with one
existing Domain `[3, 6]`. -/
def gapProtein : Protein :=
  { unique_ID := "G1".data
    name := "G1".data
    sequence := "MAEPQRDGHK".data
    attributes := []
    domains := [⟨3, 6, "D".data, []⟩]
    sites := []
    tracks := [] }

/-- Fixture protein `A` for the selective-ingestion scenario. -/
def proteinA : Protein :=
  { unique_ID := "A".data
    name := "A".data
    sequence := "MAEPQRDG".data
    attributes := []
    domains := []
    sites := []
    tracks := [] }

/-- Fixture protein `C` for the selective-ingestion scenario. -/
def proteinC : Protein :=
  { unique_ID := "C".data
    name := "C".data
    sequence := "MKLVNPQE".data
    attributes := []
    domains := []
    sites := []
    tracks := [] }

/-- A Collection containing only the identifiers `A` and `C`. -/
def abcProteome : Proteome := ⟨[proteinA, proteinC], []⟩

/-- A domain file with records for identifiers `A`, `B` and `C`; `B` is
absent from `abcProteome`. -/
def abcDomainFile : List Char :=
  "A\t2\t4\tdom1\nB\t1\t3\tdom2\nC\t5\t8\tdom3\n".data

/-- A domain file for `A` with three valid lines and two malformed ones
(an unparsable number, then a missing column) interleaved. -/
def partialFile : List Char :=
  "A\t1\t2\td1\nA\tX\t3\td2\nA\t3\t4\td3\nA\t5\t6\nA\t7\t8\td4\n".data

/-- A domain file whose twelve lines are all malformed (missing
columns), to exercise message truncation. -/
def overflowFile : List Char :=
  ("A\t0\nA\t0\nA\t0\nA\t0\nA\t0\nA\t0\nA\t0\nA\t0\nA\t0\nA\t0\n" ++
   "A\t0\nA\t0\n").data

/-- A two-protein Collection with Domains and metadata, used to witness
the write → read → write round trip. -/
def roundtripProteome : Proteome :=
  ⟨[{ proteinA with domains :=
        [⟨2, 4, "IDR".data, [("color".data, "red".data)]⟩,
         ⟨5, 8, "folded".data, []⟩] },
    { proteinC with domains :=
        [⟨1, 8, "IDR".data,
          [("score".data, "0.7".data), ("src".data, "db:v2".data)]⟩] }],
   []⟩

/-! ## Coordinate-system theorems (C1, C6, C7) -/

/-- C7: `get_sequence_region` fails with an out-of-range error exactly
when `start < 1`, `end > length` or `start > end`, and on every
in-range request returns a substring of length `end - start + 1`. -/
theorem region_bounds_checked (p : Protein) (a b : Int) :
    ((a < 1 ∨ b > (p.sequence.length : Int) ∨ a > b) →
       p.get_sequence_region a b
         = .error (.region_out_of_range a b p.sequence.length)) ∧
    (1 ≤ a → a ≤ b → b ≤ (p.sequence.length : Int) →
       ∃ s, p.get_sequence_region a b = .ok s ∧
         (s.length : Int) = b - a + 1) := by
  constructor
  · intro h
    simp only [Protein.get_sequence_region, if_pos h]
  · intro h1 h2 h3
    have hcond : ¬ (a < 1 ∨ b > (p.sequence.length : Int) ∨ a > b) := by
      push_neg
      exact ⟨by omega, by omega, by omega⟩
    refine ⟨seqSlice p.sequence a.toNat b.toNat, ?_, ?_⟩
    · simp only [Protein.get_sequence_region, if_neg hcond]
    · simp only [seqSlice, List.length_take, List.length_drop]
      omega

/-- Witness for `region_bounds_checked`: on the worked example
(`MAEPQRDG`, length 8) the request (0, 4) is rejected as out of range
and the request (2, 4) succeeds with a 3-character substring. -/
theorem region_bounds_checked_witness :
    exampleProtein.get_sequence_region 0 4
      = .error (.region_out_of_range 0 4 8) ∧
    ∃ s, exampleProtein.get_sequence_region 2 4 = .ok s ∧
      (s.length : Int) = 3 := by
  constructor
  · exact (region_bounds_checked exampleProtein 0 4).1 (by norm_num)
  · have h := (region_bounds_checked exampleProtein 2 4).2
      (by norm_num) (by norm_num) (by norm_num [exampleProtein])
    obtain ⟨s, hs, hlen⟩ := h
    exact ⟨s, hs, by omega⟩

/-- C1: the public coordinate system is 1-based and inclusive on both
ends: position 1 addresses the first residue, the region `(1, length)`
is the whole sequence, and on the worked example `MAEPQRDG` the region
`(2, 4)` is `AEP`. -/
theorem coordinates_one_based_inclusive :
    (∀ p : Protein, 1 ≤ p.sequence.length →
       p.get_sequence_region 1 1 = .ok (p.sequence.take 1) ∧
       p.get_sequence_region 1 (p.sequence.length : Int) = .ok p.sequence) ∧
    exampleProtein.get_sequence_region 2 4 = .ok "AEP".data := by
  refine ⟨?_, rfl⟩
  intro p hp
  constructor
  · have hcond : ¬ ((1 : Int) < 1 ∨ (1 : Int) > (p.sequence.length : Int)
        ∨ (1 : Int) > 1) := by
      push_neg
      refine ⟨le_refl _, by exact_mod_cast hp, le_refl _⟩
    simp [Protein.get_sequence_region, if_neg hcond, seqSlice]
    exact fun hnil => by simp [hnil] at hp
  · have hcond : ¬ ((1 : Int) < 1
        ∨ (p.sequence.length : Int) > (p.sequence.length : Int)
        ∨ (1 : Int) > (p.sequence.length : Int)) := by
      push_neg
      refine ⟨le_refl _, le_refl _, by exact_mod_cast hp⟩
    simp only [Protein.get_sequence_region, if_neg hcond, seqSlice]
    congr 1
    have : ((p.sequence.length : Int)).toNat = p.sequence.length := by omega
    rw [this]
    simp
    omega

/-- Witness for `coordinates_one_based_inclusive` at the worked
example. -/
theorem coordinates_one_based_inclusive_witness :
    exampleProtein.get_sequence_region 1 1
      = .ok (exampleProtein.sequence.take 1) ∧
    exampleProtein.get_sequence_region 1 8 = .ok exampleProtein.sequence := by
  have h := coordinates_one_based_inclusive.1 exampleProtein
    (by norm_num [exampleProtein])
  exact ⟨h.1, h.2⟩

/-- C6: `get_sequence_context` is total (it returns a value for every
position and window, never an error): the returned window spans the
symmetric range clipped to the sequence bounds, and at either boundary
position the returned window is strictly shorter than the full
`2 * window + 1` residues a fully interior position would get. -/
theorem context_clipped_never_fails (p : Protein) (pos w : Nat)
    (h1 : 1 ≤ pos) (h2 : pos ≤ p.sequence.length) :
    (p.get_sequence_context pos w).length
        = min p.sequence.length (pos + w) - max 1 (pos - w) + 1 ∧
    ((pos = 1 ∨ pos = p.sequence.length) → 1 ≤ w →
      (p.get_sequence_context pos w).length < 2 * w + 1) := by
  have hlen : (p.get_sequence_context pos w).length
      = min p.sequence.length (pos + w) - max 1 (pos - w) + 1 := by
    simp only [Protein.get_sequence_context, seqSlice, List.length_take,
      List.length_drop]
    omega
  refine ⟨hlen, ?_⟩
  intro hb hw
  rw [hlen]
  rcases hb with hb | hb <;> omega

/-- Witness for `context_clipped_never_fails`: on `MAEPQRDG` (length 8)
the contexts at positions 1 and 8 with window 5 are clipped to 6
residues, strictly fewer than the 11 an interior position would
receive. -/
theorem context_clipped_never_fails_witness :
    (exampleProtein.get_sequence_context 1 5).length = 6 ∧
    (exampleProtein.get_sequence_context 1 5).length < 11 ∧
    (exampleProtein.get_sequence_context 8 5).length < 11 := by
  have h1 := context_clipped_never_fails exampleProtein 1 5 (by norm_num)
    (by norm_num [exampleProtein])
  have h8 := context_clipped_never_fails exampleProtein 8 5 (by norm_num)
    (by norm_num [exampleProtein])
  refine ⟨?_, ?_, ?_⟩
  · rw [h1.1]; norm_num [exampleProtein]
  · have := h1.2 (Or.inl rfl) (by norm_num)
    omega
  · have := h8.2 (Or.inr (by norm_num [exampleProtein])) (by norm_num)
    omega

/-! ## Collection uniqueness (C9) -/

lemma check_unique_ID_iff (P : Proteome) (uid : List Char) :
    P.check_unique_ID uid = true ↔ uid ∈ P.uids := by
  simp only [Proteome.check_unique_ID, List.any_eq_true,
    decide_eq_true_eq, Proteome.uids, List.mem_map]

lemma apply_op_nodup (P : Proteome) (op : ProteomeOp)
    (h : P.uids.Nodup) : (P.apply_op op).uids.Nodup := by
  cases op with
  | add p =>
    by_cases hc : P.check_unique_ID p.unique_ID
    · simp [Proteome.apply_op, Proteome.add_protein, hc, h]
    · simp only [Proteome.apply_op, Proteome.add_protein, hc, if_false,
        Bool.false_eq_true]
      have hmem : p.unique_ID ∉ P.uids := by
        intro hm
        exact hc ((check_unique_ID_iff P p.unique_ID).mpr hm)
      simp only [Proteome.uids, List.map_append, List.map_cons,
        List.map_nil]
      refine List.Nodup.append h (List.nodup_singleton _) ?_
      intro a ha hb
      simp only [List.mem_singleton] at hb
      exact hmem (by rwa [hb] at ha)
  | remove uid =>
    have hsub : (P.remove_protein uid).uids.Sublist P.uids := by
      simp only [Proteome.uids, Proteome.remove_protein]
      exact List.Sublist.map _ (List.filter_sublist _)
    exact h.sublist hsub

/-- C9: Collection identifiers stay unique: inserting a Protein whose
identifier is already present fails with a duplicate-identifier error
and leaves the Collection unchanged, and any sequence of insert/remove
steps started from a Collection with pairwise-distinct identifiers ends
in a Collection with pairwise-distinct identifiers. -/
theorem proteome_unique_ids (P : Proteome) (p : Protein)
    (ops : List ProteomeOp) (h : P.uids.Nodup) :
    (p.unique_ID ∈ P.uids →
       P.add_protein p = .error (.duplicate_unique_ID p.unique_ID) ∧
       P.apply_op (.add p) = P) ∧
    (ops.foldl Proteome.apply_op P).uids.Nodup := by
  constructor
  · intro hm
    have hc := (check_unique_ID_iff P p.unique_ID).mpr hm
    constructor
    · simp [Proteome.add_protein, hc]
    · simp [Proteome.apply_op, Proteome.add_protein, hc]
  · induction ops generalizing P with
    | nil => exact h
    | cons op rest ih =>
      exact ih _ (apply_op_nodup P op h)

/-- Witness for `proteome_unique_ids`: inserting a duplicate of the
worked example's protein into the one-protein Collection fails and
leaves it unchanged, and an add/remove/add run from it keeps the
identifier list duplicate-free. -/
theorem proteome_unique_ids_witness :
    (Proteome.mk [exampleProtein] []).add_protein exampleProtein
        = .error (.duplicate_unique_ID "P1".data) ∧
    (Proteome.mk [exampleProtein] []).apply_op (.add exampleProtein)
        = Proteome.mk [exampleProtein] [] ∧
    (([ProteomeOp.add exampleProtein, .remove "P1".data,
        .add exampleProtein].foldl Proteome.apply_op
        (Proteome.mk [exampleProtein] [])).uids).Nodup := by
  have h := proteome_unique_ids (Proteome.mk [exampleProtein] [])
    exampleProtein
    [ProteomeOp.add exampleProtein, .remove "P1".data, .add exampleProtein]
    (by simp [Proteome.uids])
  have hm : exampleProtein.unique_ID ∈ (Proteome.mk [exampleProtein] []).uids := by
    simp [Proteome.uids]
  exact ⟨(h.1 hm).1, (h.1 hm).2, h.2⟩

/-! ## Track length invariant (C5) -/

lemma add_track_ok_inversion (p : Protein) (t : Track) (p' : Protein)
    (h : p.add_track t = .ok p') :
    t.entry_count = p.sequence.length ∧
    p' = { p with tracks := p.tracks ++ [t] } := by
  by_cases h1 : t.entry_count ≠ p.sequence.length
  · simp [Protein.add_track, h1] at h
  · by_cases h2 : p.tracks.any (fun tr => decide (tr.name = t.name))
    · simp [Protein.add_track, h1, h2] at h
    · simp only [Protein.add_track, h1, if_false, h2, Bool.false_eq_true,
        if_neg, Except.ok.injEq] at h
      exact ⟨by omega, h.symm⟩

lemma add_track_from_line_ok (p : Protein) (line : List Char) (p' : Protein)
    (h : p.add_track_from_line line = .ok p') :
    ∃ t, p.add_track t = .ok p' := by
  unfold Protein.add_track_from_line at h
  split at h
  · split at h
    · exact ⟨_, h⟩
    · exact absurd h (by simp)
  · exact absurd h (by simp)

/-- C5: Track attachment enforces the length invariant: a Track whose
entry count differs from the sequence length is rejected with a
length-mismatch error; a Track of matching length (and fresh name)
attaches; and any successful attachment — direct or through a track
file line — leaves every attached Track with exactly
`len(sequence)` entries.  The documentation's concrete track lines for
`MAEPQRDG` behave accordingly: the 8-value line attaches, the 7-value
line is rejected with a length mismatch. -/
theorem track_length_enforced (p : Protein) (t : Track) (line : List Char) :
    (t.entry_count ≠ p.sequence.length →
       p.add_track t = .error
         (.track_length_mismatch t.name t.entry_count p.sequence.length)) ∧
    (t.entry_count = p.sequence.length →
       p.tracks.any (fun tr => decide (tr.name = t.name)) = false →
       p.add_track t = .ok { p with tracks := p.tracks ++ [t] }) ∧
    (∀ p', (p.add_track t = .ok p' ∨ p.add_track_from_line line = .ok p') →
       (∀ tr ∈ p.tracks, tr.entry_count = p.sequence.length) →
       ∀ tr ∈ p'.tracks, tr.entry_count = p'.sequence.length) ∧
    (exampleProtein.add_track_from_line
        "P1\tmytrack\t1\t1\t0\t0\t1\t1\t0\t1".data
      = .ok { exampleProtein with
          tracks := [⟨"mytrack".data, .values [1, 1, 0, 0, 1, 1, 0, 1]⟩] }) ∧
    (exampleProtein.add_track_from_line "P1\tmytrack\t1\t1\t0\t0\t1\t1\t0".data
      = .error (.track_length_mismatch "mytrack".data 7 8)) := by
  refine ⟨?_, ?_, ?_, rfl, rfl⟩
  · intro h
    simp [Protein.add_track, h]
  · intro h1 h2
    simp [Protein.add_track, h1, h2]
  · intro p' hok hinv
    have hstep : ∃ t', p.add_track t' = .ok p' := by
      rcases hok with hok | hok
      · exact ⟨t, hok⟩
      · exact add_track_from_line_ok p line p' hok
    obtain ⟨t', ht'⟩ := hstep
    obtain ⟨hlen, rfl⟩ := add_track_ok_inversion p t' p' ht'
    intro tr htr
    simp only [List.mem_append, List.mem_singleton] at htr
    rcases htr with htr | rfl
    · exact hinv tr htr
    · exact hlen

/-- Witness for `track_length_enforced`: a 7-entry track on the
8-residue worked example is rejected, a fresh 8-entry track attaches,
and the length invariant holds after the attachment. -/
theorem track_length_enforced_witness :
    (exampleProtein.add_track ⟨"short".data, .values [1, 1, 0, 0, 1, 1, 0]⟩
      = .error (.track_length_mismatch "short".data 7 8)) ∧
    (exampleProtein.add_track ⟨"mytrack".data, .values [1, 1, 0, 0, 1, 1, 0, 1]⟩
      = .ok { exampleProtein with
          tracks := [⟨"mytrack".data, .values [1, 1, 0, 0, 1, 1, 0, 1]⟩] }) ∧
    (∀ tr ∈ ({ exampleProtein with
          tracks := [⟨"mytrack".data, .values [1, 1, 0, 0, 1, 1, 0, 1]⟩] }
            : Protein).tracks,
       tr.entry_count = ({ exampleProtein with
          tracks := [⟨"mytrack".data, .values [1, 1, 0, 0, 1, 1, 0, 1]⟩] }
            : Protein).sequence.length) := by
  have h7 := (track_length_enforced exampleProtein
    ⟨"short".data, .values [1, 1, 0, 0, 1, 1, 0]⟩ []).1 (by decide)
  have h8 := (track_length_enforced exampleProtein
    ⟨"mytrack".data, .values [1, 1, 0, 0, 1, 1, 0, 1]⟩ []).2.1
    (by decide) (by decide)
  refine ⟨h7, h8, ?_⟩
  exact ((track_length_enforced exampleProtein
    ⟨"mytrack".data, .values [1, 1, 0, 0, 1, 1, 0, 1]⟩ []).2.2.1 _
    (Or.inl h8) (by simp [exampleProtein]))

/-! ## Gap filling (C8) and tool frame property (C10) -/

lemma mem_interval_pairs (L s e : Nat) :
    (s, e) ∈ interval_pairs L ↔ 1 ≤ s ∧ s ≤ e ∧ e ≤ L := by
  simp only [interval_pairs, List.mem_flatMap, List.mem_map,
    List.mem_range'_1, Prod.mk.injEq]
  constructor
  · rintro ⟨s', ⟨hs1, hs2⟩, e', ⟨he1, he2⟩, rfl, rfl⟩
    omega
  · rintro ⟨h1, h2, h3⟩
    exact ⟨s, ⟨by omega, by omega⟩, e, ⟨by omega, by omega⟩, rfl, rfl⟩

/-- C8: `build_missing_domains` returns exactly one Domain of the
supplied type (and empty attributes) per maximal run of positions not
covered by any existing Domain — no Domain for empty gaps — and on the
10-residue fixture with one existing Domain `[3, 6]` it returns exactly
`[1, 2]` and `[7, 10]` with the gap-fill type. -/
theorem build_missing_domains_maximal_gaps (p : Protein) (ty : List Char)
    (d : Domain) :
    (d ∈ build_missing_domains p ty ↔
       is_missing_run p.sequence.length p.domains d.start d.dend = true ∧
       d.domain_type = ty ∧ d.attributes = []) ∧
    build_missing_domains gapProtein "gap".data
      = [⟨1, 2, "gap".data, []⟩, ⟨7, 10, "gap".data, []⟩] := by
  refine ⟨?_, by rfl⟩
  simp only [build_missing_domains, List.mem_map, List.mem_filter]
  constructor
  · rintro ⟨⟨s, e⟩, ⟨hmem, hrun⟩, rfl⟩
    exact ⟨hrun, rfl, rfl⟩
  · rintro ⟨hrun, hty, hattr⟩
    refine ⟨(d.start, d.dend), ⟨?_, hrun⟩, ?_⟩
    · have hb : 1 ≤ d.start ∧ d.start ≤ d.dend ∧
          d.dend ≤ p.sequence.length := by
        simp only [is_missing_run, Bool.and_eq_true, decide_eq_true_eq]
          at hrun
        exact ⟨hrun.1.1.1.1.1, hrun.1.1.1.1.2, hrun.1.1.1.2⟩
      exact (mem_interval_pairs _ _ _).mpr hb
    · cases d
      simp_all

/-- Witness for `build_missing_domains_maximal_gaps`: the returned
Domain `[7, 10]` of the fixture is indeed a maximal uncovered run with
the supplied type. -/
theorem build_missing_domains_maximal_gaps_witness :
    Domain.mk 7 10 "gap".data [] ∈ build_missing_domains gapProtein "gap".data
    ∧ is_missing_run gapProtein.sequence.length gapProtein.domains 7 10
        = true := by
  have h := (build_missing_domains_maximal_gaps gapProtein "gap".data
    ⟨7, 10, "gap".data, []⟩).1.mpr ⟨by decide, rfl, rfl⟩
  exact ⟨h, by decide⟩

/-- C10: the derived-annotation tool functions are non-mutating: a tool
call against a Collection returns the Collection state unchanged,
together with freshly built Domains/Tracks for the caller to attach
separately. -/
theorem tools_do_not_mutate (P : Proteome) (c : ToolCall) :
    (tools_call P c).1 = P := by
  cases c with
  | missing_domains uid dtype =>
    simp only [tools_call]
    cases P.protein? uid <;> rfl
  | domains_from_track uid tname dtype thr =>
    simp only [tools_call]
    split
    · split <;> rfl
    · rfl
  | site_density uid stype w =>
    simp only [tools_call]
    cases P.protein? uid <;> rfl

/-! ## Splitting/joining lemmas -/

lemma splitCharAux_append_not_mem (sep : Char) (f cs : List Char)
    (h : sep ∉ f) :
    splitCharAux sep (f ++ cs)
      = (f ++ (splitCharAux sep cs).1, (splitCharAux sep cs).2) := by
  induction f with
  | nil => simp
  | cons c f ih =>
    have hc : ¬ (c = sep) := fun hEq => h (by simp [hEq])
    have hf : sep ∉ f := fun hm => h (List.mem_cons_of_mem _ hm)
    simp only [List.cons_append, splitCharAux, if_neg hc]
    rw [show f.append cs = f ++ cs from rfl, ih hf]

lemma splitCharAux_sep_cons (sep : Char) (cs : List Char) :
    splitCharAux sep (sep :: cs)
      = ([], (splitCharAux sep cs).1 :: (splitCharAux sep cs).2) := by
  simp [splitCharAux]

lemma splitChar_joinChar (sep : Char) (fs : List (List Char))
    (hne : fs ≠ []) (h : ∀ f ∈ fs, sep ∉ f) :
    splitChar sep (joinChar sep fs) = fs := by
  induction fs with
  | nil => exact absurd rfl hne
  | cons f rest ih =>
    cases rest with
    | nil =>
      have hf : sep ∉ f := h f (List.mem_cons_self _ _)
      have haux := splitCharAux_append_not_mem sep f [] hf
      simp only [List.append_nil] at haux
      simp [splitChar, joinChar, haux, splitCharAux]
    | cons g rest' =>
      have hf : sep ∉ f := h f (List.mem_cons_self _ _)
      have hrest : ∀ x ∈ g :: rest', sep ∉ x :=
        fun x hx => h x (List.mem_cons_of_mem _ hx)
      have ihr := ih (by simp) hrest
      simp only [splitChar] at ihr ⊢
      simp only [joinChar,
        splitCharAux_append_not_mem sep f _ hf, splitCharAux_sep_cons,
        List.append_nil]
      rw [List.cons.injEq] at ihr
      simp [ihr.1, ihr.2]

lemma joinChar_splitChar (sep : Char) (cs : List Char) :
    joinChar sep (splitChar sep cs) = cs := by
  induction cs with
  | nil => rfl
  | cons c cs ih =>
    by_cases hc : c = sep
    · subst hc
      simp only [splitChar, splitCharAux_sep_cons] at ih ⊢
      rw [joinChar]
      simpa using ih
    · simp only [splitChar, splitCharAux, if_neg hc] at ih ⊢
      cases h2 : (splitCharAux sep cs).2 with
      | nil =>
        rw [h2] at ih
        simp only [joinChar] at ih ⊢
        simpa using ih
      | cons g gs =>
        rw [h2] at ih
        rw [joinChar] at ih ⊢
        simpa using ih

lemma mem_joinChar (sep : Char) (fs : List (List Char)) (c : Char)
    (hc : c ∈ joinChar sep fs) : c = sep ∨ ∃ f ∈ fs, c ∈ f := by
  induction fs with
  | nil => simp [joinChar] at hc
  | cons f rest ih =>
    cases rest with
    | nil =>
      simp only [joinChar] at hc
      exact Or.inr ⟨f, by simp, hc⟩
    | cons g rest' =>
      rw [joinChar] at hc
      rcases List.mem_append.mp hc with hcf | hcs
      · exact Or.inr ⟨f, by simp, hcf⟩
      · rcases List.mem_cons.mp hcs with rfl | hcr
        · exact Or.inl rfl
        · rcases ih hcr with h | ⟨f', hf', hcf'⟩
          · exact Or.inl h
          · exact Or.inr ⟨f', List.mem_cons_of_mem _ hf', hcf'⟩

lemma joinChar_cons_cons_ne_nil (sep : Char) (f g : List Char)
    (fs : List (List Char)) : joinChar sep (f :: g :: fs) ≠ [] := by
  rw [joinChar]
  intro h
  rcases List.append_eq_nil.mp h with ⟨_, h2⟩
  exact absurd h2 (by simp)

/-! ## Decimal round-trip lemmas -/

lemma digit_char_range (m : Nat) (h : m < 10) :
    48 ≤ (Char.ofNat (48 + m)).toNat ∧ (Char.ofNat (48 + m)).toNat ≤ 57 := by
  interval_cases m <;> decide

lemma digitVal?_digit (m : Nat) (h : m < 10) :
    digitVal? (Char.ofNat (48 + m)) = some m := by
  interval_cases m <;> decide

lemma natToChars_digit_range (n : Nat) :
    ∀ c ∈ natToChars n, 48 ≤ c.toNat ∧ c.toNat ≤ 57 := by
  induction n using Nat.strong_induction_on with
  | _ n ih =>
    rw [natToChars]
    by_cases h : n < 10
    · simp only [if_pos h, List.mem_singleton]
      rintro c rfl
      exact digit_char_range n h
    · simp only [if_neg h, List.mem_append, List.mem_singleton]
      rintro c (hc | rfl)
      · exact ih (n / 10) (Nat.div_lt_self (by omega) (by omega)) c hc
      · exact digit_char_range (n % 10) (Nat.mod_lt _ (by omega))

lemma natToChars_ne_nil (n : Nat) : natToChars n ≠ [] := by
  rw [natToChars]
  by_cases h : n < 10 <;> simp [h]

lemma natToChars_not_sep (n : Nat) (c : Char) (hc : c ∈ natToChars n) :
    c ≠ '\t' ∧ c ≠ '\n' ∧ c ≠ ':' := by
  have h := natToChars_digit_range n c hc
  refine ⟨?_, ?_, ?_⟩ <;> rintro rfl <;> exact absurd h (by decide)

lemma charsToNatAux_append (xs ys : List Char) (acc : Nat) :
    charsToNatAux (xs ++ ys) acc
      = match charsToNatAux xs acc with
        | some a => charsToNatAux ys a
        | none => none := by
  induction xs generalizing acc with
  | nil => simp [charsToNatAux]
  | cons c xs ih =>
    simp only [List.cons_append, charsToNatAux]
    cases digitVal? c with
    | some d => simp [ih]
    | none => simp

lemma charsToNatAux_natToChars (n : Nat) :
    charsToNatAux (natToChars n) 0 = some n := by
  induction n using Nat.strong_induction_on with
  | _ n ih =>
    rw [natToChars]
    by_cases h : n < 10
    · simp only [if_pos h]
      simp [charsToNatAux, digitVal?_digit n h]
    · simp only [if_neg h]
      rw [charsToNatAux_append]
      rw [ih (n / 10) (Nat.div_lt_self (by omega) (by omega))]
      have hm : n % 10 < 10 := Nat.mod_lt _ (by omega)
      simp only [charsToNatAux, digitVal?_digit _ hm]
      have : n / 10 * 10 + n % 10 = n := by omega
      rw [this]

lemma charsToNat_natToChars (n : Nat) :
    charsToNat (natToChars n) = some n := by
  simp [charsToNat, natToChars_ne_nil n, charsToNatAux_natToChars n]

/-! ## Domain line round-trip lemmas -/

lemma attr_token_no_tab_nl (kv : List Char × List Char) (h : wf_attr kv) :
    '\t' ∉ attr_token kv ∧ '\n' ∉ attr_token kv := by
  simp only [wf_attr] at h
  obtain ⟨h1, h2, _, h4, h5⟩ := h
  unfold attr_token
  constructor <;> intro hm <;> rcases List.mem_append.mp hm with hm | hm
  · exact h1 hm
  · rcases List.mem_cons.mp hm with heq | hm
    · exact absurd heq (by decide)
    · exact h4 hm
  · exact h2 hm
  · rcases List.mem_cons.mp hm with heq | hm
    · exact absurd heq (by decide)
    · exact h5 hm

lemma parseAttrToken_roundtrip (kv : List Char × List Char)
    (h : wf_attr kv) : parseAttrToken (attr_token kv) = some kv := by
  obtain ⟨k, v⟩ := kv
  simp only [wf_attr] at h
  obtain ⟨-, -, hk, -, -⟩ := h
  unfold parseAttrToken attr_token
  have hsplit : splitChar ':' (k ++ ':' :: v)
      = k :: (splitCharAux ':' v).1 :: (splitCharAux ':' v).2 := by
    simp only [splitChar, splitCharAux_append_not_mem ':' k _ hk,
      splitCharAux_sep_cons, List.append_nil]
  rw [hsplit]
  have hjoin := joinChar_splitChar ':' v
  simp only [splitChar] at hjoin
  simp [hjoin]

lemma parseAttrTokens_roundtrip (attrs : List (List Char × List Char))
    (h : ∀ kv ∈ attrs, wf_attr kv) :
    parseAttrTokens (attrs.map attr_token) = some attrs := by
  induction attrs with
  | nil => rfl
  | cons kv rest ih =>
    simp only [List.map_cons, parseAttrTokens,
      parseAttrToken_roundtrip kv (h kv (List.mem_cons_self _ _)),
      ih (fun x hx => h x (List.mem_cons_of_mem _ hx))]

lemma domain_line_fields (uid : List Char) (d : Domain)
    (hu : '\t' ∉ uid) (hty : '\t' ∉ d.domain_type)
    (hattrs : ∀ kv ∈ d.attributes, wf_attr kv) :
    splitChar '\t' (domain_line uid d)
      = uid :: natToChars d.start :: natToChars d.dend ::
          d.domain_type :: d.attributes.map attr_token := by
  unfold domain_line
  apply splitChar_joinChar
  · simp
  · intro f hf
    simp only [List.mem_cons] at hf
    rcases hf with rfl | rfl | rfl | rfl | hf
    · exact hu
    · exact fun hm => absurd rfl (natToChars_not_sep _ _ hm).1
    · exact fun hm => absurd rfl (natToChars_not_sep _ _ hm).1
    · exact hty
    · obtain ⟨kv, hkv, rfl⟩ := List.mem_map.mp hf
      exact (attr_token_no_tab_nl kv (hattrs kv hkv)).1

lemma domain_line_no_newline (uid : List Char) (d : Domain)
    (hu : '\n' ∉ uid) (hty : '\n' ∉ d.domain_type)
    (hattrs : ∀ kv ∈ d.attributes, wf_attr kv) :
    '\n' ∉ domain_line uid d := by
  intro hm
  rcases mem_joinChar _ _ _ hm with heq | ⟨f, hf, hcf⟩
  · exact absurd heq (by decide)
  · simp only [List.mem_cons] at hf
    rcases hf with rfl | rfl | rfl | rfl | hf
    · exact hu hcf
    · exact absurd rfl (natToChars_not_sep _ _ hcf).2.1
    · exact absurd rfl (natToChars_not_sep _ _ hcf).2.1
    · exact hty hcf
    · obtain ⟨kv, hkv, rfl⟩ := List.mem_map.mp hf
      exact (attr_token_no_tab_nl kv (hattrs kv hkv)).2 hcf

lemma domain_line_ne_nil (uid : List Char) (d : Domain) :
    domain_line uid d ≠ [] := by
  unfold domain_line
  exact joinChar_cons_cons_ne_nil _ _ _ _

lemma parse_domain_fields_roundtrip (uid : List Char) (d : Domain)
    (hattrs : ∀ kv ∈ d.attributes, wf_attr kv) :
    parse_domain_fields uid
        (natToChars d.start :: natToChars d.dend :: d.domain_type ::
          d.attributes.map attr_token)
      = .record ⟨uid, d.start, d.dend, d.domain_type, d.attributes⟩ := by
  simp only [parse_domain_fields, charsToNat_natToChars,
    parseAttrTokens_roundtrip _ hattrs]

/-! ## Reload-fold lemmas -/

lemma protein?_append_cons (done : List Protein) (pr0 : Protein)
    (todo : List Protein) (attrs : List (List Char × List Char))
    (uid : List Char) (hn : uid ∉ done.map (·.unique_ID))
    (huid : pr0.unique_ID = uid) :
    Proteome.protein? ⟨done ++ pr0 :: todo, attrs⟩ uid = some pr0 := by
  unfold Proteome.protein?
  induction done with
  | nil =>
    simp only [List.nil_append, List.cons_append]
    rw [List.find?_cons_of_pos _ (by simp [huid])]
  | cons q rest ih =>
    have hq : ¬ (q.unique_ID = uid) := fun h => hn (by simp [h])
    simp only [List.cons_append]
    rw [List.find?_cons_of_neg _ (by simp [hq])]
    exact ih (fun hm => hn (List.mem_cons_of_mem _ hm))

lemma attach_append_cons (done : List Protein) (pr0 : Protein)
    (rest : List Protein) (uid : List Char) (d : Domain)
    (hn : uid ∉ done.map (·.unique_ID)) (huid : pr0.unique_ID = uid) :
    attachDomainToList (done ++ pr0 :: rest) uid d
      = done ++ ({ pr0 with domains := pr0.domains ++ [d] }) :: rest := by
  induction done with
  | nil => simp [attachDomainToList, huid]
  | cons q qrest ih =>
    have hq : ¬ (q.unique_ID = uid) := fun h => hn (by simp [h])
    simp only [List.cons_append, attachDomainToList, if_neg hq,
      List.cons.injEq, true_and]
    exact ih (fun hm => hn (List.mem_cons_of_mem _ hm))

lemma process_block (attrs : List (List Char × List Char))
    (errors : List (List Char)) (skipped : Nat)
    (done todo : List Protein) (pr0 : Protein) (ds : List Domain)
    (uid : List Char)
    (hn : uid ∉ done.map (·.unique_ID)) (huid : pr0.unique_ID = uid)
    (hu : '\t' ∉ uid ∧ '\n' ∉ uid)
    (hwf : ∀ d ∈ ds, wf_domain pr0.sequence.length d) :
    List.foldl si_domains_process_line
        ⟨⟨done ++ pr0 :: todo, attrs⟩, errors, skipped⟩
        (ds.map (domain_line uid))
      = ⟨⟨done ++ ({ pr0 with domains := pr0.domains ++ ds }) :: todo, attrs⟩,
          errors, skipped⟩ := by
  induction ds generalizing pr0 with
  | nil => simp
  | cons d ds ih =>
    have hwfd := hwf d (List.mem_cons_self _ _)
    have hwfd' := hwfd
    simp only [wf_domain] at hwfd'
    obtain ⟨hb1, hb2, hb3, hty_t, hty_n, hattrs⟩ := hwfd'
    have hstep : si_domains_process_line
        ⟨⟨done ++ pr0 :: todo, attrs⟩, errors, skipped⟩ (domain_line uid d)
        = ⟨⟨done ++ ({ pr0 with domains := pr0.domains ++ [d] }) :: todo,
              attrs⟩, errors, skipped⟩ := by
      unfold si_domains_process_line
      rw [if_neg (domain_line_ne_nil uid d)]
      rw [domain_line_fields uid d hu.1 hty_t hattrs]
      simp only [protein?_append_cons done pr0 todo attrs uid hn huid,
        parse_domain_fields_roundtrip uid d hattrs]
      rw [if_pos ⟨hb1, hb2, hb3⟩]
      simp only [mkDomain]
      rw [attach_append_cons done pr0 todo uid ⟨d.start, d.dend,
        d.domain_type, d.attributes⟩ hn huid]
    rw [List.map_cons, List.foldl_cons, hstep]
    rw [ih ({ pr0 with domains := pr0.domains ++ [d] }) huid
      (fun d' hd' => hwf d' (List.mem_cons_of_mem _ hd'))]
    simp

lemma process_proteins (attrs : List (List Char × List Char))
    (errors : List (List Char)) (skipped : Nat)
    (done todo : List Protein)
    (hnodup : ((done ++ todo).map (·.unique_ID)).Nodup)
    (hwf : ∀ pr ∈ todo, wf_protein pr) :
    List.foldl si_domains_process_line
        ⟨⟨done ++ todo.map strip_protein, attrs⟩, errors, skipped⟩
        (todo.flatMap (fun pr => pr.domains.map (domain_line pr.unique_ID)))
      = ⟨⟨done ++ todo.map restore_protein, attrs⟩, errors, skipped⟩ := by
  induction todo generalizing done with
  | nil => simp
  | cons pr rest ih =>
    have hwfpr := hwf pr (List.mem_cons_self _ _)
    have hwfpr' := hwfpr
    simp only [wf_protein] at hwfpr'
    obtain ⟨hut, hun, hwfds⟩ := hwfpr'
    have hn : pr.unique_ID ∉ done.map (·.unique_ID) := by
      intro hm
      have h1 := (List.nodup_append.mp (by
        simpa only [List.map_append] using hnodup)).2.2
      exact h1 hm (by simp)
    rw [List.flatMap_cons, List.foldl_append]
    have hblock := process_block attrs errors skipped done
      (rest.map strip_protein) (strip_protein pr) pr.domains pr.unique_ID
      hn rfl ⟨hut, hun⟩ hwfds
    simp only [List.map_cons, List.cons_append] at hblock ⊢
    rw [hblock]
    have hrestore : ({ strip_protein pr with
        domains := (strip_protein pr).domains ++ pr.domains })
        = restore_protein pr := by
      simp [strip_protein, restore_protein]
    rw [hrestore]
    have hassoc : done ++ restore_protein pr :: rest.map strip_protein
        = (done ++ [restore_protein pr]) ++ rest.map strip_protein := by
      simp
    rw [hassoc]
    rw [ih (done ++ [restore_protein pr])
      (by simpa only [List.map_append, List.append_assoc, List.map_cons,
        List.map_nil, restore_protein] using hnodup)
      (fun x hx => hwf x (List.mem_cons_of_mem _ hx))]
    simp

lemma domain_lines_restore (P : Proteome) :
    domain_lines (restore_domains P) = domain_lines P := by
  unfold domain_lines restore_domains
  induction P.proteins with
  | nil => rfl
  | cons pr rest ih =>
    simp only [List.map_cons, List.flatMap_cons, ih]
    rfl

lemma process_empty_line (st : DomainLoadState) :
    si_domains_process_line st [] = st := by
  simp [si_domains_process_line]

/-- C2: the domain writer is deterministic and write → read → write is
byte-identical: for every serializable Collection (unique identifiers,
fields free of the format's separators, Domains within their sequences),
writing its Domains, reading the output back into a fresh Collection
seeded with the same sequences, and writing again reproduces the first
output exactly, character for character. -/
theorem write_read_write_byte_identical (P : Proteome)
    (hwf : wf_proteome P) :
    write_domains ((add_domains_from_file (strip_annotations P)
        (write_domains P)).proteome)
      = write_domains P := by
  obtain ⟨hnodup, hwfp⟩ := hwf
  have hlines : splitChar '\n' (write_domains P) = domain_lines P ++ [[]] := by
    unfold write_domains
    apply splitChar_joinChar
    · simp
    · intro f hf
      rcases List.mem_append.mp hf with hf | hf
      · obtain ⟨pr, hpr, hmem⟩ := List.mem_flatMap.mp hf
        obtain ⟨d, hd, rfl⟩ := List.mem_map.mp hmem
        have hw := hwfp pr hpr
        simp only [wf_protein] at hw
        have hwd := hw.2.2 d hd
        simp only [wf_domain] at hwd
        exact domain_line_no_newline pr.unique_ID d hw.2.1 hwd.2.2.2.2.1
          hwd.2.2.2.2.2
      · simp only [List.mem_singleton] at hf
        subst hf
        simp
  have hfold := process_proteins P.attributes [] 0 [] P.proteins
    (by simpa using hnodup) hwfp
  simp only [List.nil_append] at hfold
  unfold add_domains_from_file add_domains_from_lines
  rw [hlines, List.foldl_append]
  have hinit : (⟨strip_annotations P, [], 0⟩ : DomainLoadState)
      = ⟨⟨P.proteins.map strip_protein, P.attributes⟩, [], 0⟩ := rfl
  rw [hinit]
  have hdl : domain_lines P
      = P.proteins.flatMap (fun pr => pr.domains.map (domain_line pr.unique_ID)) := rfl
  rw [hdl, hfold]
  simp only [List.foldl_cons, List.foldl_nil, process_empty_line]
  show write_domains (restore_domains P) = write_domains P
  unfold write_domains
  rw [domain_lines_restore]

/-- Witness for `write_read_write_byte_identical`: the two-protein
fixture with metadata-bearing Domains round-trips byte-identically. -/
theorem write_read_write_byte_identical_witness :
    write_domains ((add_domains_from_file (strip_annotations roundtripProteome)
        (write_domains roundtripProteome)).proteome)
      = write_domains roundtripProteome := by
  apply write_read_write_byte_identical
  refine ⟨by decide, ?_⟩
  simp only [roundtripProteome, proteinA, proteinC, wf_protein, wf_domain,
    wf_attr, List.forall_mem_cons, List.not_mem_nil, false_implies,
    implies_true, and_true]
  repeat' apply And.intro
  all_goals decide

/-! ## Selective ingestion (C3) and partial failure (C4) -/

/-- C3: selective ingestion: a line whose leading identifier is absent
from the Collection is skipped — counted, not parsed, not errored, the
Collection untouched — and on the concrete scenario a domain file with
records for `{A, B, C}` loaded into a Collection holding only `{A, C}`
attaches domains to `A` and `C` with `B`'s record counted as skipped
and zero errors. -/
theorem selective_ingestion (st : DomainLoadState) (line : List Char)
    (uid : List Char) (rest : List (List Char))
    (hline : line ≠ [])
    (hsplit : splitChar '\t' line = uid :: rest)
    (habsent : st.proteome.protein? uid = none) :
    si_domains_process_line st line
      = { st with skipped_count := st.skipped_count + 1 } ∧
    add_domains_from_file abcProteome abcDomainFile
      = ⟨⟨[{ proteinA with domains := [⟨2, 4, "dom1".data, []⟩] },
           { proteinC with domains := [⟨5, 8, "dom3".data, []⟩] }], []⟩,
          0, [], 1⟩ := by
  constructor
  · unfold si_domains_process_line
    rw [if_neg hline, hsplit]
    simp [habsent]
  · rfl

/-- Witness for `selective_ingestion`: processing the `B` line against
the `{A, C}` Collection increments the skipped count and changes
nothing else. -/
theorem selective_ingestion_witness :
    si_domains_process_line ⟨abcProteome, [], 0⟩ "B\t1\t3\tdom2".data
      = ⟨abcProteome, [], 1⟩ := by
  exact (selective_ingestion ⟨abcProteome, [], 0⟩ "B\t1\t3\tdom2".data
    "B".data ["1".data, "3".data, "dom2".data]
    (by decide) (by decide) (by rfl)).1

/-- C4: partial-failure tolerance: a malformed line is recorded as
exactly one error and processing continues with the Collection and skip
count untouched; the final report surfaces at most the first 10 error
messages while always carrying the total count.  Concretely, a file
with 3 valid and 2 malformed lines annotates the Collection from the 3
valid lines and reports an error count of 2, and a file with 12
malformed lines reports an error count of 12 with exactly 10 surfaced
messages. -/
theorem partial_failure_bounded_report (P : Proteome) (file : List Char)
    (st : DomainLoadState) (line uid : List Char)
    (rest : List (List Char)) (pr : Protein) (msg : List Char)
    (hline : line ≠ []) (hsplit : splitChar '\t' line = uid :: rest)
    (hpresent : st.proteome.protein? uid = some pr)
    (hbad : parse_domain_fields uid rest = .malformed msg) :
    si_domains_process_line st line
      = { st with error_messages := st.error_messages ++ [msg] } ∧
    (add_domains_from_file P file).reported_messages.length ≤ 10 ∧
    (add_domains_from_file P file).error_count
      = (add_domains_from_lines P (splitChar '\n' file)).error_messages.length ∧
    add_domains_from_file abcProteome partialFile
      = ⟨⟨[{ proteinA with domains :=
              [⟨1, 2, "d1".data, []⟩, ⟨3, 4, "d3".data, []⟩,
               ⟨7, 8, "d4".data, []⟩] }, proteinC], []⟩,
          2, ["unparsable start/end for A".data,
              "wrong column count for A".data], 0⟩ ∧
    (add_domains_from_file abcProteome overflowFile).error_count = 12 ∧
    (add_domains_from_file abcProteome overflowFile).reported_messages.length
      = 10 := by
  refine ⟨?_, ?_, rfl, by rfl, by rfl, by rfl⟩
  · unfold si_domains_process_line
    rw [if_neg hline, hsplit]
    simp [hpresent, hbad]
  · unfold add_domains_from_file finalize_report
    simp

/-- Witness for `partial_failure_bounded_report`: the malformed
`A<tab>X<tab>3<tab>d2` line against the `{A, C}` Collection records one
error and nothing else. -/
theorem partial_failure_bounded_report_witness :
    si_domains_process_line ⟨abcProteome, [], 0⟩ "A\tX\t3\td2".data
      = ⟨abcProteome, ["unparsable start/end for A".data], 0⟩ := by
  exact (partial_failure_bounded_report abcProteome [] ⟨abcProteome, [], 0⟩
    "A\tX\t3\td2".data "A".data ["X".data, "3".data, "d2".data] proteinA
    "unparsable start/end for A".data
    (by decide) (by decide) (by rfl) (by rfl)).1

end Shephard
